import Mathlib

/-!
Verification of the cross-log identity reconciliation and voting
aggregation engine of `leet_count` (`src/leet_count/count_leets.py`),
against its natural-language specification.

The embedding models pandas DataFrames of parsed message records as
lists of `Record`, ordered dicts as association lists, and the pandas
operations used by the code (merge, groupby, value_counts, column
assignment with index alignment, mean with NaN skipping, numpy round)
as executable Lean functions.  Floating-point means are modelled as
exact rationals; all the facts proved below only involve means whose
float computation is exact (small dyadic rationals), so the model
agrees with the float semantics there.
-/

namespace LeetCount

/-- One parsed chat message, as produced by `extractor.parse_file_to_leet`:
owner label, normalized text, the decomposed timestamp fields, and the
event flags (each 0 or 1) computed at parse time. -/
structure Record where
  message_owner : String
  message_text : String
  year : Nat
  month : Nat
  day : Nat
  hour : Nat
  minute : Nat
  is_leet : Nat
  is_zeet : Nat
  is_420 : Nat
deriving DecidableEq, Repr

/-- Lexicographic comparison of character lists by code point. -/
def charListLe : List Char → List Char → Bool
  | [], _ => true
  | _ :: _, [] => false
  | a :: as, b :: bs =>
    if a.toNat < b.toNat then true
    else if b.toNat < a.toNat then false
    else charListLe as bs

/-- Lexicographic string comparison (pandas sorts group keys this way). -/
def strLe (a b : String) : Bool := charListLe a.data b.data

/-- Distinct values in sorted order: models the index of a pandas
`groupby` result (groupby sorts its keys). -/
def sortedDedup (l : List String) : List String :=
  List.insertionSort (fun a b => strLe a b = true) l.dedup

/-- `df[mask].groupby('message_owner')[feat].sum()` restricted to one
owner: the sum of a feature column over the owner's records. -/
def featSum (feat : Record → Nat) (o : String) (recs : List Record) : Nat :=
  ((recs.filter (fun r => decide (r.message_owner = o))).map feat).sum

/-- `get_date_mask` applied as a filter: records of one calendar day. -/
def dayRecs (d m y : Nat) (recs : List Record) : List Record :=
  recs.filter (fun r => decide (r.day = d ∧ r.month = m ∧ r.year = y))

/-- Owners appearing in a file on a given day (the groupby index). -/
def dayOwners (d m y : Nat) (recs : List Record) : List String :=
  sortedDedup ((dayRecs d m y recs).map Record.message_owner)

/-- Lines 188-193 of `count_leets.py`: per-owner sums of the event flag
over one day of one file, then `occ_count[occ_count > 1] = 1`. -/
def occSeries (d m y : Nat) (feat : Record → Nat) (recs : List Record) :
    List (String × Nat) :=
  (dayOwners d m y recs).map
    (fun o => (o, min (featSum feat o (dayRecs d m y recs)) 1))

/-- A pandas DataFrame being built column by column: the number of
columns assigned so far and, per index entry, its label and row of
values (`none` models NaN). -/
structure Scaffold where
  ncols : Nat
  rows : List (String × List (Option Nat))

/-- `scaffold_df[key] = occ_count`: while the DataFrame's index is
empty, assigning a nonempty series adopts that series' index and fills
the previously assigned columns with NaN (pandas `_ensure_valid_index`);
otherwise the series is aligned to the existing index, so labels absent
from the index are dropped and index labels absent from the series get
NaN. -/
def assignCol (s : Scaffold) (series : List (String × Nat)) : Scaffold :=
  if s.rows.isEmpty && !series.isEmpty then
    ⟨s.ncols + 1, series.map (fun p => (p.1, List.replicate s.ncols none ++ [some p.2]))⟩
  else ⟨s.ncols + 1, s.rows.map (fun r => (r.1, r.2 ++ [List.lookup r.1 series]))⟩

/-- The column-assignment loop over all files of the log collection. -/
def buildScaffold (series : List Record → List (String × Nat))
    (logs : List (String × List Record)) : Scaffold :=
  logs.foldl (fun sc p => assignCol sc (series p.2)) ⟨0, []⟩

/-- `mean(axis=1)` on one row: NaN entries are skipped (pandas default
`skipna=True`); an all-NaN row yields `0/0 = 0`, which matches the
`NaN >= 0.5` comparison being false and `fillna(0)` downstream. -/
def rowMean (vs : List (Option Nat)) : ℚ :=
  mkRat ((vs.filterMap id).sum : Int) (vs.filterMap id).length

/-- `get_section_winners` (lines 167-198): build the per-file capped
presence columns, take the row mean, keep owners with mean >= 0.5. -/
def get_section_winners (d m y : Nat) (logs : List (String × List Record))
    (feat : Record → Nat) : List String :=
  let sc := buildScaffold (occSeries d m y feat) logs
  ((sc.rows.map (fun r => (r.1, rowMean r.2))).filter
      (fun p => decide (mkRat 1 2 ≤ p.2))).map Prod.fst

/-- `file_df[mask & (file_df.hour == h)]`: one day and one hour. -/
def selWindow (d m y h : Nat) (recs : List Record) : List Record :=
  recs.filter (fun r => decide (r.day = d ∧ r.month = m ∧ r.year = y ∧ r.hour = h))

/-- One capped window series of `calc_occurences_420`: group the hour-h
records of the day by owner, sum `is_420`, cap at 1. -/
def windowSeries (d m y h : Nat) (recs : List Record) : List (String × Nat) :=
  (sortedDedup ((selWindow d m y h recs).map Record.message_owner)).map
    (fun o => (o, min (featSum Record.is_420 o (selWindow d m y h recs)) 1))

/-- `calc_occurences_420` (lines 233-259): `scaff['04'] = occ_count_04`
then `scaff['16'] = occ_count_16` build a two-column DataFrame with the
same assignment semantics as above (a nonempty 04-series fixes the
index and the 16-series is aligned to it, dropping 16:20-only owners;
an empty 04-series lets the 16-series adopt the index instead);
`scaff.sum(axis=1)` sums each row with NaN as 0. -/
def calc_occurences_420 (d m y : Nat) (recs : List Record) : List (String × Nat) :=
  let scaff := assignCol (assignCol ⟨0, []⟩ (windowSeries d m y 4 recs))
    (windowSeries d m y 16 recs)
  scaff.rows.map (fun r => (r.1, (r.2.map (fun v => v.getD 0)).sum))

/-- numpy `np.round` on an exact rational: round half to even, phrased
with integer arithmetic on the canonical numerator and denominator. -/
def roundHalfEven (q : ℚ) : Int :=
  let n : Int := q.num.fdiv (q.den : Int)
  let r : Int := q.num - n * (q.den : Int)
  if 2 * r < (q.den : Int) then n
  else if (q.den : Int) < 2 * r then n + 1
  else if n % 2 = 0 then n else n + 1

/-- `get_winner_420` (lines 201-230): per-file 420 occurrence columns,
row mean with `fillna(0)`, `np.round(...).astype(int)`, then each owner
is repeated that many times (`retval.extend([key] * val)`). -/
def get_winner_420 (d m y : Nat) (logs : List (String × List Record)) : List String :=
  let sc := buildScaffold (calc_occurences_420 d m y) logs
  (sc.rows.map (fun r => (r.1, (roundHalfEven (rowMean r.2)).toNat))).flatMap
    (fun p => List.replicate p.2 p.1)

/-- `df['message_owner'].unique()`: distinct owner labels of a file, in
order of first appearance. -/
def uniqueOwners (recs : List Record) : List String :=
  (recs.map Record.message_owner).dedup

/-- Labels containing no digit character (line 149-150):
`not any(c.isdigit() for c in x)` over the characters of the label. -/
def validNames (recs : List Record) : List String :=
  (uniqueOwners recs).filter (fun x => !(x.data.any Char.isDigit))

/-- `valid_users = len(valid_names)`. -/
def validUsers (recs : List Record) : Nat := (validNames recs).length

/-- `valid_users / float(len(unique_owners))` as an exact rational. -/
def utvRatio (recs : List Record) : ℚ :=
  mkRat (validUsers recs : Int) (uniqueOwners recs).length

/-- One iteration of the `find_root_mapping_file` loop: state is
`(max_uniques, utv_ratio, base_file)`; empty files are skipped; a file
replaces the best candidate when both comparisons (>=) succeed. -/
def rootStep (st : Nat × ℚ × Option String) (p : String × List Record) :
    Nat × ℚ × Option String :=
  if p.2 = [] then st
  else if st.1 ≤ validUsers p.2 ∧ st.2.1 ≤ utvRatio p.2 then
    (validUsers p.2, utvRatio p.2, some p.1)
  else st

/-- `find_root_mapping_file` (lines 125-164). -/
def find_root_mapping_file (logs : List (String × List Record)) : Option String :=
  (logs.foldl rootStep (0, (0 : ℚ), none)).2.2

/-- The composite merge key of `pd.merge(..., on=['message_text', 'day',
'month', 'year'])`. -/
def sameKey (r s : Record) : Prop :=
  r.message_text = s.message_text ∧ r.day = s.day ∧ r.month = s.month ∧ r.year = s.year

instance (r s : Record) : Decidable (sameKey r s) := by
  unfold sameKey; infer_instance

/-- The inner join of lines 91-92: every pair of a base record and an
other-file record agreeId on the merge key, projected to the two owner
columns `(message_owner_x, message_owner_y)`. -/
def mergedPairs (base othr : List Record) : List (String × String) :=
  base.flatMap (fun r =>
    ((othr.filter (fun s => decide (sameKey r s))).map
      (fun s => (r.message_owner, s.message_owner))))

/-- The keys of `groupby('message_owner_x')`, in sorted order. -/
def groupKeys (ps : List (String × String)) : List String :=
  sortedDedup (ps.map Prod.fst)

/-- The `message_owner_y` values of one `message_owner_x` group. -/
def groupVals (ps : List (String × String)) (x : String) : List String :=
  (ps.filter (fun p => decide (p.1 = x))).map Prod.snd

/-- `value_counts` + `idxmax`: the value with the highest frequency;
among equally frequent values the sort order of the frequency table
keeps the lexicographically smallest first, which `idxmax` returns. -/
def selectMostFrequent (vals : List String) : Option String :=
  match sortedDedup vals with
  | [] => none
  | c :: cs => some (cs.foldl (fun best c2 => if vals.count best < vals.count c2 then c2 else best) c)

/-- Lines 98-100: one `(selected_y, x)` pair per group, the tuple being
reversed (`[::-1]`) so the other file's label is the key. -/
def mappingPairs (base othr : List Record) : List (String × String) :=
  (groupKeys (mergedPairs base othr)).filterMap
    (fun x => (selectMostFrequent (groupVals (mergedPairs base othr) x)).map (fun y => (y, x)))

/-- Python `dict` insertion: a repeated key keeps its first position but
takes the later value. -/
def dictInsert (acc : List (String × String)) (p : String × String) :
    List (String × String) :=
  if acc.any (fun q => decide (q.1 = p.1)) then
    acc.map (fun q => if q.1 = p.1 then (q.1, p.2) else q)
  else acc ++ [p]

/-- `dict(mapping)` on the pair list (line 101). -/
def dictOfPairs (ps : List (String × String)) : List (String × String) :=
  ps.foldl dictInsert []

/-- `map_message_owner_names` (lines 67-103): the owner mapping derived
for one non-root file, as an association list with dict semantics. -/
def map_message_owner_names (base othr : List Record) : List (String × String) :=
  dictOfPairs (mappingPairs base othr)

/-- `df['message_owner'].apply(conversion.get)` (line 119): the rewritten
owner column; a label absent from the mapping becomes `none` (None). -/
def newOwnerColumn (conv : List (String × String)) (recs : List Record) :
    List (Option String) :=
  recs.map (fun r => List.lookup r.message_owner conv)

/-- The hypothesis of the claim on reconciler totality, as stated:
every record of either log has a record of the other log with the same
(text, calendar date) join key. -/
def overlapTotal (base othr : List Record) : Bool :=
  base.all (fun r => othr.any (fun s => decide (sameKey r s))) &&
  othr.all (fun s => base.any (fun r => decide (sameKey r s)))

/-- Renaming the owner labels of a log, used to state the amended
totality claim: the other log records the same messages with owner
labels renamed by `f`. -/
def renameOwners (f : String → String) (recs : List Record) : List Record :=
  recs.map (fun r => { r with message_owner := f r.message_owner })

/-! ### Basic lemmas about the groupby index and association lists -/

theorem mem_sortedDedup {x : String} {l : List String} : x ∈ sortedDedup l ↔ x ∈ l := by
  unfold sortedDedup
  rw [List.mem_insertionSort, List.mem_dedup]

theorem nodup_sortedDedup (l : List String) : (sortedDedup l).Nodup :=
  ((List.perm_insertionSort _ _).symm).nodup (List.nodup_dedup _)

theorem lookup_keyed_map {β : Type} (g : String → β) {o : String} :
    ∀ {l : List String}, o ∈ l →
      List.lookup o (l.map (fun x => (x, g x))) = some (g o)
  | x :: xs, h => by
    rw [List.map_cons, List.lookup_cons]
    rcases eq_or_ne o x with rfl | hne
    · simp
    · have hb : (o == x) = false := beq_eq_false_iff_ne.2 hne
      rw [hb]
      have hmem : o ∈ xs := by
        rcases List.mem_cons.1 h with h1 | h1
        · exact absurd h1 hne
        · exact h1
      exact lookup_keyed_map g hmem

theorem lookup_keyed_map_none {β : Type} (g : String → β) {o : String} :
    ∀ {l : List String}, o ∉ l →
      List.lookup o (l.map (fun x => (x, g x))) = none
  | [], _ => rfl
  | x :: xs, h => by
    have hne : o ≠ x := fun e => h (e ▸ List.mem_cons_self x xs)
    have hxs : o ∉ xs := fun e => h (List.mem_cons_of_mem _ e)
    rw [List.map_cons, List.lookup_cons]
    have hb : (o == x) = false := beq_eq_false_iff_ne.2 hne
    rw [hb]
    exact lookup_keyed_map_none g hxs

theorem lookup_some_mem {β : Type} [BEq β] {o : String} {v : β} :
    ∀ {l : List (String × β)}, List.lookup o l = some v → (o, v) ∈ l
  | (k, b) :: es, h => by
    rw [List.lookup_cons] at h
    rcases hok : o == k with _ | _
    · rw [hok] at h
      exact List.mem_cons_of_mem _ (lookup_some_mem h)
    · rw [hok] at h
      obtain rfl : b = v := by simpa using h
      obtain rfl : o = k := by simpa using hok
      exact List.mem_cons_self _ _

theorem featSum_pos_mem {feat : Record → Nat} {o : String} {recs : List Record}
    (h : 1 ≤ featSum feat o recs) : o ∈ recs.map Record.message_owner := by
  by_contra hmem
  have : recs.filter (fun r => decide (r.message_owner = o)) = [] := by
    refine List.filter_eq_nil_iff.2 (fun r hr => ?_)
    simp only [decide_eq_true_eq]
    exact fun e => hmem (List.mem_map.2 ⟨r, hr, e⟩)
  unfold featSum at h
  rw [this] at h
  simp at h

theorem featSum_eq_zero_of_notMem {feat : Record → Nat} {o : String} {recs : List Record}
    (h : o ∉ recs.map Record.message_owner) : featSum feat o recs = 0 := by
  by_contra hne
  exact absurd (featSum_pos_mem (Nat.one_le_iff_ne_zero.2 hne)) h

/-! ### The row mean and the scaffold DataFrame -/

theorem rowMean_eq_div (vs : List (Option Nat)) :
    rowMean vs = ((vs.filterMap id).sum : ℚ) / ((vs.filterMap id).length : ℚ) := by
  unfold rowMean
  rw [Rat.mkRat_eq_div, Int.cast_natCast]

theorem rowMean_const (c n : Nat) (hn : 1 ≤ n) :
    rowMean (List.replicate n (some c)) = (c : ℚ) := by
  have hfm : (List.replicate n (some c)).filterMap id = List.replicate n c := by
    induction n with
    | zero => rfl
    | succ k ih => simp [List.replicate_succ, ih]
  have hn0 : ((n : ℚ)) ≠ 0 := Nat.cast_ne_zero.2 (by omega)
  rw [rowMean_eq_div, hfm, List.sum_replicate, List.length_replicate, smul_eq_mul]
  push_cast
  rw [mul_comm, mul_div_assoc, div_self hn0, mul_one]

theorem assignCol_ncols (s : Scaffold) (series : List (String × Nat)) :
    (assignCol s series).ncols = s.ncols + 1 := by
  unfold assignCol
  split
  · rfl
  · rfl

theorem assignCol_rows_aligned (s : Scaffold) (series : List (String × Nat))
    (h : s.rows ≠ []) :
    (assignCol s series).rows =
      s.rows.map (fun r => (r.1, r.2 ++ [List.lookup r.1 series])) := by
  unfold assignCol
  rw [if_neg (by simp [List.isEmpty_iff, h])]

theorem assignCol_rows_adopt (s : Scaffold) (series : List (String × Nat))
    (hs : s.rows = []) (hne : series ≠ []) :
    (assignCol s series).rows =
      series.map (fun p => (p.1, List.replicate s.ncols none ++ [some p.2])) := by
  unfold assignCol
  rw [if_pos (by simp [List.isEmpty_iff, hs, hne])]

theorem foldl_assignCol_all_empty (series : List Record → List (String × Nat)) :
    ∀ (logs : List (String × List Record)) (s : Scaffold), s.rows = [] →
      (∀ p ∈ logs, series p.2 = []) →
      (logs.foldl (fun sc p => assignCol sc (series p.2)) s).rows = [] ∧
      (logs.foldl (fun sc p => assignCol sc (series p.2)) s).ncols =
        s.ncols + logs.length
  | [], _, hs, _ => ⟨hs, rfl⟩
  | p :: logs, s, hs, hall => by
    rw [List.foldl_cons]
    have hrw : (assignCol s (series p.2)).rows = [] := by
      unfold assignCol
      rw [if_neg (by simp [hall p (List.mem_cons_self _ _)])]
      rw [hs]
      rfl
    obtain ⟨h1, h2⟩ := foldl_assignCol_all_empty series logs (assignCol s (series p.2))
      hrw (fun q hq => hall q (List.mem_cons_of_mem _ hq))
    refine ⟨h1, ?_⟩
    rw [h2, assignCol_ncols, List.length_cons]
    omega

theorem foldl_assignCol_rows (series : List Record → List (String × Nat)) :
    ∀ (logs : List (String × List Record)) (s : Scaffold), s.rows ≠ [] →
      (logs.foldl (fun sc p => assignCol sc (series p.2)) s).rows =
        s.rows.map (fun r => (r.1, r.2 ++ logs.map (fun p => List.lookup r.1 (series p.2))))
  | [], s, _ => by simp
  | p :: logs, s, h => by
    rw [List.foldl_cons]
    have hrows := assignCol_rows_aligned s (series p.2) h
    have hne : (assignCol s (series p.2)).rows ≠ [] := by
      rw [hrows]
      exact fun e => h (List.map_eq_nil_iff.1 e)
    rw [foldl_assignCol_rows series logs _ hne, hrows, List.map_map]
    refine List.map_congr_left (fun r _ => ?_)
    simp [List.append_assoc]

theorem buildScaffold_rows_general (series : List Record → List (String × Nat))
    (pre : List (String × List Record)) (m : String × List Record)
    (rest : List (String × List Record))
    (hpre : ∀ p ∈ pre, series p.2 = []) (hm : series m.2 ≠ []) :
    (buildScaffold series (pre ++ m :: rest)).rows =
      (series m.2).map (fun q =>
        (q.1, List.replicate pre.length none ++
          some q.2 :: rest.map (fun p => List.lookup q.1 (series p.2)))) := by
  unfold buildScaffold
  rw [List.foldl_append, List.foldl_cons]
  obtain ⟨hr0, hc0⟩ := foldl_assignCol_all_empty series pre ⟨0, []⟩ rfl hpre
  set S := pre.foldl (fun sc p => assignCol sc (series p.2)) ⟨0, []⟩ with hS
  have hadopt := assignCol_rows_adopt S (series m.2) hr0 hm
  have hne : (assignCol S (series m.2)).rows ≠ [] := by
    rw [hadopt]
    exact fun e => hm (List.map_eq_nil_iff.1 e)
  rw [foldl_assignCol_rows series rest _ hne, hadopt, List.map_map]
  refine List.map_congr_left (fun q _ => ?_)
  have hcn : S.ncols = pre.length := by
    rw [hc0]
    simp
  simp [hcn, List.append_assoc]

theorem buildScaffold_rows (series : List Record → List (String × Nat))
    (p0 : String × List Record) (rest : List (String × List Record))
    (h : series p0.2 ≠ []) :
    (buildScaffold series (p0 :: rest)).rows =
      (series p0.2).map (fun q =>
        (q.1, some q.2 :: rest.map (fun p => List.lookup q.1 (series p.2)))) := by
  have hg := buildScaffold_rows_general series [] p0 rest
    (fun p hp => absurd hp (List.not_mem_nil p)) h
  simpa using hg

theorem rowMean_skip_leading_nans (k : Nat) (vs : List (Option Nat)) :
    rowMean (List.replicate k none ++ vs) = rowMean vs := by
  have h0 : (List.replicate k (none : Option Nat)).filterMap id = [] := by
    induction k with
    | zero => rfl
    | succ n ih =>
      rw [List.replicate_succ, List.filterMap_cons_none rfl, ih]
  unfold rowMean
  rw [List.filterMap_append, h0, List.nil_append]

/-! ### C1: the Daily Winner Resolver -/

/-- C1 (amended): the winner index of `get_section_winners` is adopted
from the first file that has any records on the requested day (files
before it contribute all-NaN columns; files after it are aligned to
that index, so owners absent from it are dropped); a winner is an owner
of that index whose mean capped presence is at least 1/2, the mean
ranging only over the files in which the owner has day records (absence
contributes NaN, which the mean skips, rather than 0). -/
theorem get_section_winners_characterization
    (d m y : Nat) (feat : Record → Nat) (pre : List (String × List Record))
    (km : String) (rm : List Record) (rest : List (String × List Record)) (o : String)
    (hpre : ∀ p ∈ pre, occSeries d m y feat p.2 = [])
    (hm : occSeries d m y feat rm ≠ []) :
    o ∈ get_section_winners d m y (pre ++ (km, rm) :: rest) feat ↔
      o ∈ dayOwners d m y rm ∧
      mkRat 1 2 ≤ rowMean (some (min (featSum feat o (dayRecs d m y rm)) 1) ::
        rest.map (fun p => List.lookup o (occSeries d m y feat p.2))) := by
  show o ∈ (((buildScaffold (occSeries d m y feat) (pre ++ (km, rm) :: rest)).rows.map
      (fun r => (r.1, rowMean r.2))).filter
      (fun p => decide (mkRat 1 2 ≤ p.2))).map Prod.fst ↔ _
  rw [buildScaffold_rows_general _ pre (km, rm) rest hpre hm]
  show o ∈ ((((dayOwners d m y rm).map
      (fun o2 => (o2, min (featSum feat o2 (dayRecs d m y rm)) 1))).map
      (fun q => (q.1, List.replicate pre.length none ++
        some q.2 :: rest.map (fun p => List.lookup q.1 (occSeries d m y feat p.2)))) |>.map
      (fun r => (r.1, rowMean r.2))).filter
      (fun p => decide (mkRat 1 2 ≤ p.2))).map Prod.fst ↔ _
  rw [List.map_map, List.map_map]
  simp only [List.mem_map, List.mem_filter, Function.comp_apply, decide_eq_true_eq]
  constructor
  · rintro ⟨p, ⟨⟨o2, ho2, rfl⟩, hle⟩, rfl⟩
    rw [rowMean_skip_leading_nans] at hle
    exact ⟨ho2, hle⟩
  · rintro ⟨ho, hle⟩
    refine ⟨_, ⟨⟨o, ho, rfl⟩, ?_⟩, rfl⟩
    rw [rowMean_skip_leading_nans]
    exact hle

/-- Witness for the amended C1: a day-empty file followed by a one-leet
file makes "Alice" a winner with mean 1. -/
theorem get_section_winners_characterization_witness :
    "Alice" ∈ get_section_winners 1 1 2019
      [("e", [⟨"Eve", "z", 2019, 2, 2, 13, 37, 1, 0, 0⟩]),
       ("f1", [⟨"Alice", "hi", 2019, 1, 1, 13, 37, 1, 0, 0⟩])] Record.is_leet ↔
      "Alice" ∈ dayOwners 1 1 2019 [⟨"Alice", "hi", 2019, 1, 1, 13, 37, 1, 0, 0⟩] ∧
      mkRat 1 2 ≤ rowMean (some (min (featSum Record.is_leet "Alice"
        (dayRecs 1 1 2019 [⟨"Alice", "hi", 2019, 1, 1, 13, 37, 1, 0, 0⟩])) 1) ::
        ([] : List (String × List Record)).map
          (fun p => List.lookup "Alice" (occSeries 1 1 2019 Record.is_leet p.2))) :=
  get_section_winners_characterization 1 1 2019 Record.is_leet
    [("e", [⟨"Eve", "z", 2019, 2, 2, 13, 37, 1, 0, 0⟩])] "f1"
    [⟨"Alice", "hi", 2019, 1, 1, 13, 37, 1, 0, 0⟩] [] "Alice"
    (by decide) (by decide)

/-- C1 fails as stated: with two files, "Bob" has capped presence 1 in
exactly half of the files ("f2") and no records in the other file on
that day, so the claim makes him a winner (mean 1/2 over all files with
absence as 0); the code returns only ["Alice"], because column alignment
to the first file's index drops "Bob" entirely. -/
theorem get_section_winners_alignment_counterexample :
    get_section_winners 1 1 2019
      [("f1", [⟨"Alice", "hi", 2019, 1, 1, 13, 37, 1, 0, 0⟩]),
       ("f2", [⟨"Bob", "yo", 2019, 1, 1, 13, 37, 1, 0, 0⟩])] Record.is_leet = ["Alice"] ∧
    List.lookup "Bob"
      (occSeries 1 1 2019 Record.is_leet [⟨"Bob", "yo", 2019, 1, 1, 13, 37, 1, 0, 0⟩]) = some 1 ∧
    (dayRecs 1 1 2019 [⟨"Alice", "hi", 2019, 1, 1, 13, 37, 1, 0, 0⟩]).all
      (fun r => decide (r.message_owner ≠ "Bob")) = true ∧
    "Bob" ∉ get_section_winners 1 1 2019
      [("f1", [⟨"Alice", "hi", 2019, 1, 1, 13, 37, 1, 0, 0⟩]),
       ("f2", [⟨"Bob", "yo", 2019, 1, 1, 13, 37, 1, 0, 0⟩])] Record.is_leet := by
  decide

/-! ### C3: per-file presence capping -/

/-- C3: in one file, for one owner, one event and one calendar day, any
number n >= 1 of qualifying messages yields a capped presence value of
exactly 1 — in the Daily Winner Resolver's per-day series and, per time
window separately, in the 420 resolver's window series. -/
theorem presence_capped_at_one :
    (∀ (d m y : Nat) (feat : Record → Nat) (recs : List Record) (o : String),
      1 ≤ featSum feat o (dayRecs d m y recs) →
        List.lookup o (occSeries d m y feat recs) = some 1) ∧
    (∀ (d m y h : Nat) (recs : List Record) (o : String),
      1 ≤ featSum Record.is_420 o (selWindow d m y h recs) →
        List.lookup o (windowSeries d m y h recs) = some 1) := by
  constructor
  · intro d m y feat recs o hsum
    have hmem : o ∈ dayOwners d m y recs :=
      mem_sortedDedup.2 (featSum_pos_mem hsum)
    show List.lookup o ((dayOwners d m y recs).map
      (fun o2 => (o2, min (featSum feat o2 (dayRecs d m y recs)) 1))) = some 1
    rw [lookup_keyed_map _ hmem, min_eq_right hsum]
  · intro d m y h recs o hsum
    have hmem : o ∈ sortedDedup ((selWindow d m y h recs).map Record.message_owner) :=
      mem_sortedDedup.2 (featSum_pos_mem hsum)
    show List.lookup o ((sortedDedup ((selWindow d m y h recs).map Record.message_owner)).map
      (fun o2 => (o2, min (featSum Record.is_420 o2 (selWindow d m y h recs)) 1))) = some 1
    rw [lookup_keyed_map _ hmem, min_eq_right hsum]

/-- Witness for C3: two qualifying messages in one file on one day cap
to a presence of exactly 1, for the leet series and for the 16:20 window. -/
theorem presence_capped_at_one_witness :
    (1 ≤ featSum Record.is_leet "Alice" (dayRecs 1 1 2019
      [⟨"Alice", "a", 2019, 1, 1, 13, 37, 1, 0, 0⟩,
       ⟨"Alice", "b", 2019, 1, 1, 13, 37, 1, 0, 0⟩])) ∧
    List.lookup "Alice" (occSeries 1 1 2019 Record.is_leet
      [⟨"Alice", "a", 2019, 1, 1, 13, 37, 1, 0, 0⟩,
       ⟨"Alice", "b", 2019, 1, 1, 13, 37, 1, 0, 0⟩]) = some 1 ∧
    List.lookup "Alice" (windowSeries 1 1 2019 16
      [⟨"Alice", "a", 2019, 1, 1, 16, 20, 0, 0, 1⟩,
       ⟨"Alice", "b", 2019, 1, 1, 16, 20, 0, 0, 1⟩]) = some 1 :=
  ⟨by decide,
   presence_capped_at_one.1 1 1 2019 Record.is_leet _ "Alice" (by decide),
   presence_capped_at_one.2 1 1 2019 16 _ "Alice" (by decide)⟩

/-! ### C4 and C9: the 420 resolver -/

theorem windowSeries_lookup_getD (d m y h : Nat) (recs : List Record) (o : String) :
    (List.lookup o (windowSeries d m y h recs)).getD 0 =
      min (featSum Record.is_420 o (selWindow d m y h recs)) 1 := by
  by_cases hmem : o ∈ (selWindow d m y h recs).map Record.message_owner
  · show (List.lookup o ((sortedDedup ((selWindow d m y h recs).map Record.message_owner)).map
      (fun o2 => (o2, min (featSum Record.is_420 o2 (selWindow d m y h recs)) 1)))).getD 0 = _
    rw [lookup_keyed_map _ (mem_sortedDedup.2 hmem)]
    rfl
  · show (List.lookup o ((sortedDedup ((selWindow d m y h recs).map Record.message_owner)).map
      (fun o2 => (o2, min (featSum Record.is_420 o2 (selWindow d m y h recs)) 1)))).getD 0 = _
    rw [lookup_keyed_map_none _ (fun hx => hmem (mem_sortedDedup.1 hx)),
      featSum_eq_zero_of_notMem hmem]
    decide

theorem windowSeries_ne_nil_of_mem {d m y h : Nat} {recs : List Record} {o : String}
    (hmem : o ∈ (selWindow d m y h recs).map Record.message_owner) :
    windowSeries d m y h recs ≠ [] := by
  intro he
  have h2 : o ∈ sortedDedup ((selWindow d m y h recs).map Record.message_owner) :=
    mem_sortedDedup.2 hmem
  have h3 : sortedDedup ((selWindow d m y h recs).map Record.message_owner) = [] :=
    List.map_eq_nil_iff.1 he
  rw [h3] at h2
  exact List.not_mem_nil o h2

theorem calc_occurences_420_eq_ne (d m y : Nat) (recs : List Record)
    (h4 : windowSeries d m y 4 recs ≠ []) :
    calc_occurences_420 d m y recs =
      (sortedDedup ((selWindow d m y 4 recs).map Record.message_owner)).map
        (fun o2 => (o2, min (featSum Record.is_420 o2 (selWindow d m y 4 recs)) 1 +
          (List.lookup o2 (windowSeries d m y 16 recs)).getD 0)) := by
  have hin := assignCol_rows_adopt ⟨0, []⟩ (windowSeries d m y 4 recs) rfl h4
  have hne : (assignCol ⟨0, []⟩ (windowSeries d m y 4 recs)).rows ≠ [] := by
    rw [hin]
    exact fun e => h4 (List.map_eq_nil_iff.1 e)
  have hF : calc_occurences_420 d m y recs =
      (windowSeries d m y 4 recs).map
        (fun q => (q.1, q.2 + (List.lookup q.1 (windowSeries d m y 16 recs)).getD 0)) := by
    show (assignCol (assignCol ⟨0, []⟩ (windowSeries d m y 4 recs))
        (windowSeries d m y 16 recs)).rows.map
        (fun r => (r.1, (r.2.map (fun v => v.getD 0)).sum)) = _
    rw [assignCol_rows_aligned _ _ hne, hin, List.map_map, List.map_map]
    refine List.map_congr_left (fun q _ => ?_)
    simp
  rw [hF]
  show ((sortedDedup ((selWindow d m y 4 recs).map Record.message_owner)).map
      (fun o2 => (o2, min (featSum Record.is_420 o2 (selWindow d m y 4 recs)) 1))).map
      (fun q => (q.1, q.2 + (List.lookup q.1 (windowSeries d m y 16 recs)).getD 0)) = _
  rw [List.map_map]
  rfl

theorem assignCol_rows_nil (s : Scaffold) (series : List (String × Nat))
    (hs : s.rows = []) (hse : series = []) : (assignCol s series).rows = [] := by
  unfold assignCol
  rw [if_neg (by simp [hse])]
  rw [hs]
  rfl

theorem calc_occurences_420_eq_nil (d m y : Nat) (recs : List Record)
    (h4 : windowSeries d m y 4 recs = []) :
    calc_occurences_420 d m y recs = windowSeries d m y 16 recs := by
  have hin : (assignCol ⟨0, []⟩ (windowSeries d m y 4 recs)).rows = [] :=
    assignCol_rows_nil _ _ rfl h4
  show (assignCol (assignCol ⟨0, []⟩ (windowSeries d m y 4 recs))
      (windowSeries d m y 16 recs)).rows.map
      (fun r => (r.1, (r.2.map (fun v => v.getD 0)).sum)) = _
  by_cases h16 : windowSeries d m y 16 recs = []
  · have hout : (assignCol (assignCol ⟨0, []⟩ (windowSeries d m y 4 recs))
        (windowSeries d m y 16 recs)).rows = [] :=
      assignCol_rows_nil _ _ hin h16
    rw [hout, h16]
    rfl
  · have hout := assignCol_rows_adopt (assignCol ⟨0, []⟩ (windowSeries d m y 4 recs))
      (windowSeries d m y 16 recs) hin h16
    have hnc : (assignCol ⟨0, []⟩ (windowSeries d m y 4 recs)).ncols = 1 := by
      rw [assignCol_ncols]
    rw [hout, List.map_map]
    refine Eq.trans (List.map_congr_left (fun p _ => ?_)) (List.map_id _)
    rw [Function.comp_apply, hnc]
    simp

theorem calc_occurences_420_lookup (d m y : Nat) (recs : List Record) (o : String) (n : Nat)
    (h4 : windowSeries d m y 4 recs ≠ []) :
    List.lookup o (calc_occurences_420 d m y recs) = some n ↔
      (o ∈ (selWindow d m y 4 recs).map Record.message_owner ∧
        n = min (featSum Record.is_420 o (selWindow d m y 4 recs)) 1 +
            min (featSum Record.is_420 o (selWindow d m y 16 recs)) 1) := by
  rw [calc_occurences_420_eq_ne d m y recs h4]
  by_cases hmem : o ∈ (selWindow d m y 4 recs).map Record.message_owner
  · rw [lookup_keyed_map _ (mem_sortedDedup.2 hmem), windowSeries_lookup_getD]
    constructor
    · intro hsome
      exact ⟨hmem, (Option.some_inj.1 hsome).symm⟩
    · rintro ⟨-, rfl⟩
      rfl
  · rw [lookup_keyed_map_none _ (fun hx => hmem (mem_sortedDedup.1 hx))]
    constructor
    · intro hsome; cases hsome
    · rintro ⟨hm, -⟩; exact absurd hm hmem

theorem keys_windowSeries (d m y h : Nat) (recs : List Record) :
    (windowSeries d m y h recs).map Prod.fst =
      sortedDedup ((selWindow d m y h recs).map Record.message_owner) := by
  show ((sortedDedup ((selWindow d m y h recs).map Record.message_owner)).map
      (fun o2 => (o2, min (featSum Record.is_420 o2 (selWindow d m y h recs)) 1))).map
      Prod.fst = _
  rw [List.map_map]
  exact List.map_id _

theorem windowSeries_value_le_one {d m y h : Nat} {recs : List Record} {o : String}
    {n : Nat} (hmem : (o, n) ∈ windowSeries d m y h recs) : n ≤ 1 := by
  rcases List.mem_map.1 hmem with ⟨o2, -, he⟩
  have := congrArg Prod.snd he
  simp only at this
  rw [← this]
  exact Nat.min_le_right _ _

theorem nodup_keys_calc_occurences_420 (d m y : Nat) (recs : List Record) :
    ((calc_occurences_420 d m y recs).map Prod.fst).Nodup := by
  by_cases h4 : windowSeries d m y 4 recs = []
  · rw [calc_occurences_420_eq_nil d m y recs h4, keys_windowSeries]
    exact nodup_sortedDedup _
  · rw [calc_occurences_420_eq_ne d m y recs h4, List.map_map]
    rw [show (Prod.fst ∘ fun o2 : String =>
        (o2, min (featSum Record.is_420 o2 (selWindow d m y 4 recs)) 1 +
          (List.lookup o2 (windowSeries d m y 16 recs)).getD 0)) = fun o2 => o2 from rfl,
      List.map_id']
    exact nodup_sortedDedup _

theorem count_flatMap_replicate_zero :
    ∀ (rows : List (String × Nat)) (w : String), w ∉ rows.map Prod.fst →
      (rows.flatMap (fun p => List.replicate p.2 p.1)).count w = 0
  | [], _, _ => rfl
  | q :: rows, w, h => by
    rw [List.map_cons, List.mem_cons] at h
    push_neg at h
    rw [List.flatMap_cons, List.count_append, List.count_replicate,
      if_neg (by simpa using fun e => h.1 e.symm),
      count_flatMap_replicate_zero rows w h.2]

theorem count_flatMap_replicate :
    ∀ (rows : List (String × Nat)) (w : String) (n : Nat),
      (rows.map Prod.fst).Nodup → (w, n) ∈ rows →
      (rows.flatMap (fun p => List.replicate p.2 p.1)).count w = n
  | q :: rows, w, n, hnd, hmem => by
    rw [List.map_cons, List.nodup_cons] at hnd
    rw [List.flatMap_cons, List.count_append]
    rcases List.mem_cons.1 hmem with rfl | htail
    · rw [List.count_replicate, if_pos (by simp),
        count_flatMap_replicate_zero rows w hnd.1]
      omega
    · have hq : q.1 ≠ w :=
        fun e => hnd.1 (e ▸ List.mem_map.2 ⟨(w, n), htail, rfl⟩)
      rw [List.count_replicate, if_neg (by simpa using hq),
        count_flatMap_replicate rows w n hnd.2 htail]
      omega

theorem roundHalfEven_natCast (c : Nat) : roundHalfEven (c : ℚ) = c := by
  unfold roundHalfEven
  rw [Rat.num_natCast, Rat.den_natCast]
  norm_num [Int.fdiv_one]

/-- C4 (amended): if the file has any hour-4 record of the day, the
per-owner values exist exactly for the owners of those hour-4 records
(the 16:20 series is aligned to the 04-series index, dropping everyone
else) and equal the sum of the two independently capped window
presences; if the file has no hour-4 record of the day the 16:20 window
series is used as the value column instead (pandas adopts its index);
every value is at most 2; and an owner who triggers both the 04:20 and
16:20 windows in every file appears exactly twice in the day's 420
winner list. -/
theorem calc_occ_420_value_and_double_credit :
    (∀ (d m y : Nat) (recs : List Record) (o : String) (n : Nat),
      windowSeries d m y 4 recs ≠ [] →
      (List.lookup o (calc_occurences_420 d m y recs) = some n ↔
        (o ∈ (selWindow d m y 4 recs).map Record.message_owner ∧
          n = min (featSum Record.is_420 o (selWindow d m y 4 recs)) 1 +
              min (featSum Record.is_420 o (selWindow d m y 16 recs)) 1))) ∧
    (∀ (d m y : Nat) (recs : List Record),
      windowSeries d m y 4 recs = [] →
      calc_occurences_420 d m y recs = windowSeries d m y 16 recs) ∧
    (∀ (d m y : Nat) (recs : List Record) (o : String) (n : Nat),
      List.lookup o (calc_occurences_420 d m y recs) = some n → n ≤ 2) ∧
    (∀ (d m y : Nat) (w k0 : String) (r0 : List Record)
      (rest : List (String × List Record)),
      (∀ p ∈ (k0, r0) :: rest,
        1 ≤ featSum Record.is_420 w (selWindow d m y 4 p.2) ∧
        1 ≤ featSum Record.is_420 w (selWindow d m y 16 p.2)) →
      (get_winner_420 d m y ((k0, r0) :: rest)).count w = 2) := by
  refine ⟨calc_occurences_420_lookup, calc_occurences_420_eq_nil, ?_, ?_⟩
  · intro d m y recs o n hl
    by_cases h4 : windowSeries d m y 4 recs = []
    · rw [calc_occurences_420_eq_nil d m y recs h4] at hl
      have := windowSeries_value_le_one (lookup_some_mem hl)
      omega
    · obtain ⟨-, rfl⟩ := (calc_occurences_420_lookup d m y recs o n h4).1 hl
      have h1 := Nat.min_le_right (featSum Record.is_420 o (selWindow d m y 4 recs)) 1
      have h2 := Nat.min_le_right (featSum Record.is_420 o (selWindow d m y 16 recs)) 1
      omega
  · intro d m y w k0 r0 rest hyp
    have hall : ∀ p ∈ (k0, r0) :: rest,
        List.lookup w (calc_occurences_420 d m y p.2) = some 2 := by
      intro p hp
      rcases hyp p hp with ⟨h4, h16⟩
      rw [calc_occurences_420_lookup d m y p.2 w 2
        (windowSeries_ne_nil_of_mem (featSum_pos_mem h4))]
      exact ⟨featSum_pos_mem h4, by rw [min_eq_right h4, min_eq_right h16]⟩
    have hmemrow : (w, (2 : Nat)) ∈ calc_occurences_420 d m y r0 :=
      lookup_some_mem (hall (k0, r0) (List.mem_cons_self _ _))
    show ((((buildScaffold (calc_occurences_420 d m y) ((k0, r0) :: rest)).rows.map
        (fun r => (r.1, (roundHalfEven (rowMean r.2)).toNat)))).flatMap
        (fun p => List.replicate p.2 p.1)).count w = 2
    rw [buildScaffold_rows _ _ _ (List.ne_nil_of_mem hmemrow), List.map_map]
    apply count_flatMap_replicate
    · rw [List.map_map]
      show ((calc_occurences_420 d m y r0).map Prod.fst).Nodup
      exact nodup_keys_calc_occurences_420 d m y r0
    · refine List.mem_map.2 ⟨(w, 2), hmemrow, ?_⟩
      have hrest : rest.map
          (fun p => List.lookup w (calc_occurences_420 d m y p.2)) =
          List.replicate rest.length (some 2) := by
        refine List.eq_replicate_iff.2 ⟨by simp, ?_⟩
        intro b hb
        rcases List.mem_map.1 hb with ⟨p, hp, rfl⟩
        exact hall p (List.mem_cons_of_mem _ hp)
      show (w, (roundHalfEven (rowMean (some 2 ::
          rest.map (fun p => List.lookup w (calc_occurences_420 d m y p.2))))).toNat) = (w, 2)
      rw [hrest, show some (2 : Nat) :: List.replicate rest.length (some 2) =
          List.replicate (rest.length + 1) (some 2) from (List.replicate_succ _ _).symm,
        rowMean_const 2 _ (by omega), roundHalfEven_natCast]
      rfl

/-- C4 fails as stated: in a file that has an hour-4 record of the day
(for "Dave"), an owner ("Cara") whose only qualifying 420 message is in
the 16:20 window has a claimed per-file value 0 + 1 = 1, but the 16:20
series is aligned to the 04-series index, so "Cara" has no value at
all, and the single-file winner list is empty instead of crediting her
once. -/
theorem calc_occ_420_sixteen_only_counterexample :
    calc_occurences_420 1 1 2019
      [⟨"Dave", "w", 2019, 1, 1, 4, 19, 0, 0, 0⟩,
       ⟨"Cara", "x", 2019, 1, 1, 16, 20, 0, 0, 1⟩] = [("Dave", 0)] ∧
    min (featSum Record.is_420 "Cara"
        (selWindow 1 1 2019 4 [⟨"Dave", "w", 2019, 1, 1, 4, 19, 0, 0, 0⟩,
          ⟨"Cara", "x", 2019, 1, 1, 16, 20, 0, 0, 1⟩])) 1 +
      min (featSum Record.is_420 "Cara"
        (selWindow 1 1 2019 16 [⟨"Dave", "w", 2019, 1, 1, 4, 19, 0, 0, 0⟩,
          ⟨"Cara", "x", 2019, 1, 1, 16, 20, 0, 0, 1⟩])) 1 = 1 ∧
    List.lookup "Cara" (calc_occurences_420 1 1 2019
      [⟨"Dave", "w", 2019, 1, 1, 4, 19, 0, 0, 0⟩,
       ⟨"Cara", "x", 2019, 1, 1, 16, 20, 0, 0, 1⟩]) = none ∧
    get_winner_420 1 1 2019
      [("f1", [⟨"Dave", "w", 2019, 1, 1, 4, 19, 0, 0, 0⟩,
               ⟨"Cara", "x", 2019, 1, 1, 16, 20, 0, 0, 1⟩])] = [] := by
  decide

/-- Witness for C4: an owner hitting 04:20 and 16:20 in both files of a
two-file collection is counted exactly twice for the day. -/
theorem calc_occ_420_value_and_double_credit_witness :
    (∀ p ∈ [("f1", [⟨"Dora", "x", 2019, 1, 1, 4, 20, 0, 0, 1⟩,
                     ⟨"Dora", "y", 2019, 1, 1, 16, 20, 0, 0, 1⟩]),
            ("f2", [⟨"Dora", "x", 2019, 1, 1, 4, 20, 0, 0, 1⟩,
                     ⟨"Dora", "y", 2019, 1, 1, 16, 20, 0, 0, 1⟩])],
      1 ≤ featSum Record.is_420 "Dora" (selWindow 1 1 2019 4 (Prod.snd p)) ∧
      1 ≤ featSum Record.is_420 "Dora" (selWindow 1 1 2019 16 (Prod.snd p))) ∧
    (get_winner_420 1 1 2019
      [("f1", [⟨"Dora", "x", 2019, 1, 1, 4, 20, 0, 0, 1⟩,
               ⟨"Dora", "y", 2019, 1, 1, 16, 20, 0, 0, 1⟩]),
       ("f2", [⟨"Dora", "x", 2019, 1, 1, 4, 20, 0, 0, 1⟩,
               ⟨"Dora", "y", 2019, 1, 1, 16, 20, 0, 0, 1⟩])]).count "Dora" = 2 :=
  ⟨by decide,
   calc_occ_420_value_and_double_credit.2.2.2 1 1 2019 "Dora" "f1" _ _ (by decide)⟩

/-- C9: the cross-file mean of the summed 420 presences goes through
numpy's half-to-even rounding before being emitted as a win count: a
mean of exactly 1/2 rounds to 0 and the owner is dropped for the day,
while a mean of exactly 3/2 rounds to 2 and the owner is emitted twice. -/
theorem get_winner_420_round_half_even :
    roundHalfEven (mkRat 1 2) = 0 ∧
    roundHalfEven (mkRat 3 2) = 2 ∧
    rowMean [some 1, some 0] = mkRat 1 2 ∧
    rowMean [some 2, some 1] = mkRat 3 2 ∧
    get_winner_420 1 1 2019
      [("f1", [⟨"Dora", "x", 2019, 1, 1, 4, 20, 0, 0, 1⟩]),
       ("f2", [⟨"Dora", "y", 2019, 1, 1, 4, 19, 0, 0, 0⟩])] = [] ∧
    get_winner_420 1 1 2019
      [("f1", [⟨"Dora", "x", 2019, 1, 1, 4, 20, 0, 0, 1⟩,
               ⟨"Dora", "y", 2019, 1, 1, 16, 20, 0, 0, 1⟩]),
       ("f2", [⟨"Dora", "x", 2019, 1, 1, 4, 20, 0, 0, 1⟩])] = ["Dora", "Dora"] := by
  decide

/-! ### C2 and C8: the Root Selector -/

theorem utvRatio_nonneg (recs : List Record) : 0 ≤ utvRatio recs := by
  unfold utvRatio
  rw [Rat.mkRat_eq_div]
  positivity

theorem utvRatio_le_one (recs : List Record) : utvRatio recs ≤ 1 := by
  unfold utvRatio
  rw [Rat.mkRat_eq_div]
  rcases Nat.eq_zero_or_pos (uniqueOwners recs).length with h | h
  · rw [h]
    norm_num
  · have hle : (((validUsers recs : Int)) : ℚ) ≤ ((uniqueOwners recs).length : ℚ) := by
      exact_mod_cast List.length_filter_le _ _
    exact div_le_one_of_le₀ hle
      (by positivity : (0 : ℚ) ≤ ((uniqueOwners recs).length : ℚ))

theorem uniqueOwners_length_ne_zero {recs : List Record} (h : recs ≠ []) :
    (uniqueOwners recs).length ≠ 0 := by
  intro hlen
  rw [List.length_eq_zero] at hlen
  have : recs.map Record.message_owner = [] := by
    by_contra hne
    rcases List.exists_mem_of_ne_nil _ hne with ⟨a, ha⟩
    rw [← List.mem_dedup] at ha
    rw [uniqueOwners] at hlen
    rw [hlen] at ha
    exact absurd ha (List.not_mem_nil a)
  exact h (List.map_eq_nil_iff.1 this)

theorem validUsers_pos_of_ratio_one {recs : List Record} (hne : recs ≠ [])
    (h : utvRatio recs = 1) : 1 ≤ validUsers recs := by
  have hlen := uniqueOwners_length_ne_zero hne
  unfold utvRatio at h
  rw [Rat.mkRat_eq_div] at h
  have hq : ((validUsers recs : ℚ)) = (((uniqueOwners recs).length : ℚ)) := by
    have hd : (((uniqueOwners recs).length : ℚ)) ≠ 0 := by
      exact_mod_cast hlen
    rw [div_eq_one_iff_eq hd] at h
    exact_mod_cast h
  have : validUsers recs = (uniqueOwners recs).length := by exact_mod_cast hq
  omega

theorem rootFold_stays (star : String × List Record) :
    ∀ (logs : List (String × List Record)) (st : Nat × ℚ × Option String),
      st = (validUsers star.2, utvRatio star.2, some star.1) →
      (∀ p ∈ logs, p.1 ≠ star.1 → validUsers p.2 < validUsers star.2) →
      (∀ p ∈ logs, p.1 = star.1 → p = star) →
      logs.foldl rootStep st = (validUsers star.2, utvRatio star.2, some star.1)
  | [], st, hst, _, _ => hst
  | p :: logs, st, hst, hlt, heq => by
    rw [List.foldl_cons]
    by_cases hpe : p.2 = []
    · rw [show rootStep st p = st from by unfold rootStep; rw [if_pos hpe]]
      exact rootFold_stays star logs st hst
        (fun q hq => hlt q (List.mem_cons_of_mem _ hq))
        (fun q hq => heq q (List.mem_cons_of_mem _ hq))
    · by_cases hps : p.1 = star.1
      · have hpstar : p = star := heq p (List.mem_cons_self _ _) hps
        rw [hpstar]
        have hcond : st.1 ≤ validUsers star.2 ∧ st.2.1 ≤ utvRatio star.2 := by
          rw [hst]; exact ⟨le_refl _, le_refl _⟩
        rw [show rootStep st star = (validUsers star.2, utvRatio star.2, some star.1) from by
          unfold rootStep; rw [if_neg (hpstar ▸ hpe), if_pos hcond]]
        exact rootFold_stays star logs _ rfl
          (fun q hq => hlt q (List.mem_cons_of_mem _ hq))
          (fun q hq => heq q (List.mem_cons_of_mem _ hq))
      · have hvlt : validUsers p.2 < validUsers star.2 :=
          hlt p (List.mem_cons_self _ _) hps
        have hcond : ¬ (st.1 ≤ validUsers p.2 ∧ st.2.1 ≤ utvRatio p.2) := by
          rw [hst]
          rintro ⟨h1, -⟩
          omega
        rw [show rootStep st p = st from by
          unfold rootStep; rw [if_neg hpe, if_neg hcond]]
        exact rootFold_stays star logs st hst
          (fun q hq => hlt q (List.mem_cons_of_mem _ hq))
          (fun q hq => heq q (List.mem_cons_of_mem _ hq))

theorem rootFold_finds_star (star : String × List Record) (hstar2 : star.2 ≠ [])
    (hratio : utvRatio star.2 = 1) :
    ∀ (logs : List (String × List Record)) (st : Nat × ℚ × Option String),
      star ∈ logs →
      st.1 < validUsers star.2 → st.2.1 ≤ 1 →
      (∀ p ∈ logs, p.1 ≠ star.1 → validUsers p.2 < validUsers star.2) →
      (∀ p ∈ logs, p.1 = star.1 → p = star) →
      (logs.foldl rootStep st).2.2 = some star.1
  | [], _, hmem, _, _, _, _ => absurd hmem (List.not_mem_nil star)
  | p :: logs, st, hmem, hst1, hst2, hlt, heq => by
    rw [List.foldl_cons]
    by_cases hp : p = star
    · rw [hp]
      have hcond : st.1 ≤ validUsers star.2 ∧ st.2.1 ≤ utvRatio star.2 :=
        ⟨Nat.le_of_lt hst1, by rw [hratio]; exact hst2⟩
      rw [show rootStep st star = (validUsers star.2, utvRatio star.2, some star.1) from by
        unfold rootStep; rw [if_neg hstar2, if_pos hcond]]
      rw [rootFold_stays star logs _ rfl
        (fun q hq => hlt q (List.mem_cons_of_mem _ hq))
        (fun q hq => heq q (List.mem_cons_of_mem _ hq))]
    · have hmem2 : star ∈ logs := by
        rcases List.mem_cons.1 hmem with h | h
        · exact absurd h.symm hp
        · exact h
      have hps : p.1 ≠ star.1 := fun e => hp (heq p (List.mem_cons_self _ _) e)
      have hvlt : validUsers p.2 < validUsers star.2 :=
        hlt p (List.mem_cons_self _ _) hps
      have hnext : (rootStep st p).1 < validUsers star.2 ∧ (rootStep st p).2.1 ≤ 1 := by
        unfold rootStep
        split
        · exact ⟨hst1, hst2⟩
        · split
          · exact ⟨hvlt, utvRatio_le_one _⟩
          · exact ⟨hst1, hst2⟩
      exact rootFold_finds_star star hstar2 hratio logs (rootStep st p) hmem2
        hnext.1 hnext.2
        (fun q hq => hlt q (List.mem_cons_of_mem _ hq))
        (fun q hq => heq q (List.mem_cons_of_mem _ hq))

/-- C2: a file replaces the running best candidate if and only if its
digit-free owner count and its valid-to-unique ratio are each at least
the current best's (both comparisons use >=, so ties go to the later
file); consequently a file with ratio 1 whose valid-owner count strictly
exceeds every other file's is always the selected root. -/
theorem find_root_replacement_and_best :
    (∀ (st : Nat × ℚ × Option String) (p : String × List Record), p.2 ≠ [] →
      (rootStep st p = (validUsers p.2, utvRatio p.2, some p.1) ↔
        (st.1 ≤ validUsers p.2 ∧ st.2.1 ≤ utvRatio p.2))) ∧
    (∀ (logs : List (String × List Record)) (star : String × List Record),
      star ∈ logs → star.2 ≠ [] → utvRatio star.2 = 1 →
      (∀ p ∈ logs, p.1 ≠ star.1 → validUsers p.2 < validUsers star.2) →
      (∀ p ∈ logs, p.1 = star.1 → p = star) →
      find_root_mapping_file logs = some star.1) := by
  constructor
  · intro st p hne
    unfold rootStep
    rw [if_neg hne]
    by_cases hcond : st.1 ≤ validUsers p.2 ∧ st.2.1 ≤ utvRatio p.2
    · rw [if_pos hcond]
      exact ⟨fun _ => hcond, fun _ => rfl⟩
    · rw [if_neg hcond]
      constructor
      · intro hst
        refine absurd ?_ hcond
        rw [hst]
        exact ⟨le_refl _, le_refl _⟩
      · intro hc
        exact absurd hc hcond
  · intro logs star hmem hne hratio hlt heq
    have h1 : (0 : Nat) < validUsers star.2 := validUsers_pos_of_ratio_one hne hratio
    exact rootFold_finds_star star hne hratio logs (0, (0 : ℚ), none) hmem h1
      (by norm_num) hlt heq

/-- Witness for C2: with a digit-polluted file and a clean file of two
owners, the clean file (ratio 1, strictly more valid owners) is chosen. -/
theorem find_root_replacement_and_best_witness :
    find_root_mapping_file
      [("f", [⟨"+49 170 555", "a", 2019, 1, 1, 12, 0, 0, 0, 0⟩,
              ⟨"Alice", "b", 2019, 1, 1, 12, 0, 0, 0, 0⟩]),
       ("g", [⟨"Alice", "a", 2019, 1, 1, 12, 0, 0, 0, 0⟩,
              ⟨"Bob", "b", 2019, 1, 1, 12, 0, 0, 0, 0⟩])] = some "g" :=
  find_root_replacement_and_best.2 _
    ("g", [⟨"Alice", "a", 2019, 1, 1, 12, 0, 0, 0, 0⟩,
           ⟨"Bob", "b", 2019, 1, 1, 12, 0, 0, 0, 0⟩])
    (by decide) (by decide) (by decide) (by decide) (by decide)

theorem rootFold_all_empty :
    ∀ (logs : List (String × List Record)) (st : Nat × ℚ × Option String),
      (∀ p ∈ logs, p.2 = []) → logs.foldl rootStep st = st
  | [], _, _ => rfl
  | p :: logs, st, h => by
    rw [List.foldl_cons,
      show rootStep st p = st from by
        unfold rootStep; rw [if_pos (h p (List.mem_cons_self _ _))]]
    exact rootFold_all_empty logs st (fun q hq => h q (List.mem_cons_of_mem _ hq))

theorem rootFold_some_stays :
    ∀ (logs : List (String × List Record)) (st : Nat × ℚ × Option String),
      (st.2.2).isSome → ((logs.foldl rootStep st).2.2).isSome
  | [], _, h => h
  | p :: logs, st, h => by
    rw [List.foldl_cons]
    refine rootFold_some_stays logs _ ?_
    unfold rootStep
    split
    · exact h
    · split
      · rfl
      · exact h

theorem rootFold_some_source :
    ∀ (logs : List (String × List Record)) (st : Nat × ℚ × Option String) (f : String),
      (logs.foldl rootStep st).2.2 = some f →
      st.2.2 = some f ∨ ∃ recs, (f, recs) ∈ logs ∧ recs ≠ []
  | [], _, _, h => Or.inl h
  | p :: logs, st, f, h => by
    rw [List.foldl_cons] at h
    rcases rootFold_some_source logs (rootStep st p) f h with hsrc | ⟨recs, hmem, hrecs⟩
    · unfold rootStep at hsrc
      by_cases hpe : p.2 = []
      · rw [if_pos hpe] at hsrc
        exact Or.inl hsrc
      · rw [if_neg hpe] at hsrc
        by_cases hcond : st.1 ≤ validUsers p.2 ∧ st.2.1 ≤ utvRatio p.2
        · rw [if_pos hcond] at hsrc
          obtain rfl : p.1 = f := Option.some_inj.1 hsrc
          exact Or.inr ⟨p.2, List.mem_cons_self _ _, hpe⟩
        · rw [if_neg hcond] at hsrc
          exact Or.inl hsrc
    · exact Or.inr ⟨recs, List.mem_cons_of_mem _ hmem, hrecs⟩

theorem rootFold_nonempty_some :
    ∀ (logs : List (String × List Record)),
      (∃ p ∈ logs, p.2 ≠ []) →
      ((logs.foldl rootStep ((0 : Nat), (0 : ℚ), (none : Option String))).2.2).isSome
  | [], h => by
    rcases h with ⟨p, hp, -⟩
    exact absurd hp (List.not_mem_nil p)
  | p :: logs, h => by
    rw [List.foldl_cons]
    by_cases hpe : p.2 = []
    · rw [show rootStep ((0 : Nat), (0 : ℚ), (none : Option String)) p =
          ((0 : Nat), (0 : ℚ), (none : Option String)) from by
        unfold rootStep; rw [if_pos hpe]]
      refine rootFold_nonempty_some logs ?_
      rcases h with ⟨q, hq, hqe⟩
      rcases List.mem_cons.1 hq with rfl | hq2
      · exact absurd hpe hqe
      · exact ⟨q, hq2, hqe⟩
    · have hcond : (0 : Nat) ≤ validUsers p.2 ∧ (0 : ℚ) ≤ utvRatio p.2 :=
        ⟨Nat.zero_le _, utvRatio_nonneg _⟩
      rw [show rootStep ((0 : Nat), (0 : ℚ), (none : Option String)) p =
          (validUsers p.2, utvRatio p.2, some p.1) from by
        unfold rootStep; rw [if_neg hpe, if_pos hcond]]
      exact rootFold_some_stays logs _ rfl

/-- C8: the Root Selector skips empty files; it returns an absent result
exactly when the collection has no nonempty file (so it never raises);
any selected root is a nonempty file of the collection; and every file
that reaches the ratio computation has a nonzero denominator. -/
theorem find_root_empty_guard :
    (∀ logs : List (String × List Record),
      (find_root_mapping_file logs = none ↔ ∀ p ∈ logs, p.2 = [])) ∧
    (∀ (logs : List (String × List Record)) (f : String),
      find_root_mapping_file logs = some f →
      ∃ recs, (f, recs) ∈ logs ∧ recs ≠ []) ∧
    (∀ recs : List Record, recs ≠ [] → (uniqueOwners recs).length ≠ 0) := by
  refine ⟨?_, ?_, fun recs h => uniqueOwners_length_ne_zero h⟩
  · intro logs
    constructor
    · intro hnone
      by_contra hne
      push_neg at hne
      rcases hne with ⟨p, hp, hpe⟩
      have := rootFold_nonempty_some logs ⟨p, hp, hpe⟩
      rw [show (logs.foldl rootStep ((0 : Nat), (0 : ℚ), (none : Option String))).2.2 =
          find_root_mapping_file logs from rfl, hnone] at this
      cases this
    · intro hall
      show (logs.foldl rootStep ((0 : Nat), (0 : ℚ), (none : Option String))).2.2 = none
      rw [rootFold_all_empty logs _ hall]
  · intro logs f hsome
    rcases rootFold_some_source logs _ f hsome with h | h
    · cases h
    · exact h

/-- Witness for C8: a collection with an empty and a nonempty file
selects the nonempty one, and an all-empty collection returns none. -/
theorem find_root_empty_guard_witness :
    (∃ recs, ("g", recs) ∈
        [("e", ([] : List Record)), ("g", [⟨"Alice", "a", 2019, 1, 1, 12, 0, 0, 0, 0⟩])] ∧
      recs ≠ []) ∧
    (find_root_mapping_file [("e", ([] : List Record))] = none) :=
  ⟨find_root_empty_guard.2.1
      [("e", ([] : List Record)), ("g", [⟨"Alice", "a", 2019, 1, 1, 12, 0, 0, 0, 0⟩])]
      "g" (by decide),
   (find_root_empty_guard.1 [("e", ([] : List Record))]).2 (by decide)⟩

/-! ### Association-list and Python-dict lemmas -/

theorem lookup_eq_none_iff {y : String} :
    ∀ {l : List (String × String)}, List.lookup y l = none ↔ y ∉ l.map Prod.fst
  | [] => by simp
  | (k, b) :: l => by
    rw [List.lookup_cons, List.map_cons, List.mem_cons]
    rcases eq_or_ne y k with rfl | hne
    · simp
    · have hb : (y == k) = false := beq_eq_false_iff_ne.2 hne
      rw [hb]
      simp only [hne, false_or]
      exact lookup_eq_none_iff

theorem lookup_append_some {l2 : List (String × String)} {y v : String} :
    ∀ {l1 : List (String × String)}, List.lookup y l1 = some v →
      List.lookup y (l1 ++ l2) = some v
  | (k, b) :: l1, h => by
    rw [List.cons_append, List.lookup_cons]
    rw [List.lookup_cons] at h
    rcases hok : y == k with _ | _
    · rw [hok] at h
      exact lookup_append_some h
    · rw [hok] at h
      exact h

theorem lookup_append_none {l2 : List (String × String)} {y : String} :
    ∀ {l1 : List (String × String)}, List.lookup y l1 = none →
      List.lookup y (l1 ++ l2) = List.lookup y l2
  | [], _ => rfl
  | (k, b) :: l1, h => by
    rw [List.cons_append, List.lookup_cons]
    rw [List.lookup_cons] at h
    rcases hok : y == k with _ | _
    · rw [hok] at h
      exact lookup_append_none h
    · rw [hok] at h
      cases h

theorem keys_dictInsert (acc : List (String × String)) (p : String × String) :
    (dictInsert acc p).map Prod.fst =
      if acc.any (fun q => decide (q.1 = p.1)) then acc.map Prod.fst
      else acc.map Prod.fst ++ [p.1] := by
  unfold dictInsert
  split
  · next h =>
    rw [List.map_map]
    refine List.map_congr_left (fun q _ => ?_)
    by_cases hq : q.1 = p.1
    · simp [hq]
    · simp [hq]
  · next h =>
    rw [List.map_append]
    rfl

theorem nodup_keys_dictInsert {acc : List (String × String)} (p : String × String)
    (h : (acc.map Prod.fst).Nodup) : ((dictInsert acc p).map Prod.fst).Nodup := by
  rw [keys_dictInsert]
  split
  · exact h
  · next hany =>
    have hnm : p.1 ∉ acc.map Prod.fst := by
      intro hmem
      rcases List.mem_map.1 hmem with ⟨q, hq, he⟩
      exact hany (List.any_eq_true.2 ⟨q, hq, by simpa using he⟩)
    rw [List.nodup_append]
    refine ⟨h, List.nodup_singleton _, ?_⟩
    intro a ha hb
    rw [List.mem_singleton] at hb
    exact hnm (hb ▸ ha)

theorem nodup_keys_dictOfPairs_aux :
    ∀ (ps : List (String × String)) (acc : List (String × String)),
      (acc.map Prod.fst).Nodup → ((ps.foldl dictInsert acc).map Prod.fst).Nodup
  | [], _, h => h
  | p :: ps, _, h => nodup_keys_dictOfPairs_aux ps _ (nodup_keys_dictInsert p h)

theorem nodup_keys_dictOfPairs (ps : List (String × String)) :
    ((dictOfPairs ps).map Prod.fst).Nodup :=
  nodup_keys_dictOfPairs_aux ps [] List.nodup_nil

theorem mem_dictInsert {acc : List (String × String)} {p e : String × String}
    (h : e ∈ dictInsert acc p) : e ∈ acc ∨ e = p := by
  unfold dictInsert at h
  split at h
  · rcases List.mem_map.1 h with ⟨q, hq, he⟩
    by_cases hqp : q.1 = p.1
    · rw [if_pos hqp] at he
      right
      rw [← he, hqp]
    · rw [if_neg hqp] at he
      exact Or.inl (he ▸ hq)
  · rcases List.mem_append.1 h with h1 | h1
    · exact Or.inl h1
    · exact Or.inr (by simpa using h1)

theorem mem_dictOfPairs_aux :
    ∀ (ps acc : List (String × String)) (e : String × String),
      e ∈ ps.foldl dictInsert acc → e ∈ acc ∨ e ∈ ps
  | [], _, _, h => Or.inl h
  | p :: ps, acc, e, h => by
    rcases mem_dictOfPairs_aux ps _ e h with h1 | h1
    · rcases mem_dictInsert h1 with h2 | h2
      · exact Or.inl h2
      · exact Or.inr (h2 ▸ List.mem_cons_self _ _)
    · exact Or.inr (List.mem_cons_of_mem _ h1)

theorem mem_dictOfPairs {ps : List (String × String)} {e : String × String}
    (h : e ∈ dictOfPairs ps) : e ∈ ps := by
  rcases mem_dictOfPairs_aux ps [] e h with h1 | h1
  · exact absurd h1 (List.not_mem_nil e)
  · exact h1

theorem lookup_update_self {p1 v : String} :
    ∀ {acc : List (String × String)}, p1 ∈ acc.map Prod.fst →
      List.lookup p1 (acc.map (fun q => if q.1 = p1 then (q.1, v) else q)) = some v
  | q :: acc, h => by
    rw [List.map_cons]
    by_cases hq : q.1 = p1
    · rw [if_pos hq, List.lookup_cons, show (p1 == q.1) = true from beq_iff_eq.2 hq.symm]
    · rw [if_neg hq, List.lookup_cons,
        show (p1 == q.1) = false from beq_eq_false_iff_ne.2 (fun e => hq e.symm)]
      have hmem : p1 ∈ acc.map Prod.fst := by
        rcases List.mem_cons.1 (List.map_cons Prod.fst q acc ▸ h) with h1 | h1
        · exact absurd h1.symm hq
        · exact h1
      exact lookup_update_self hmem

theorem lookup_update_ne {p1 v y : String} (hne : y ≠ p1) :
    ∀ (acc : List (String × String)),
      List.lookup y (acc.map (fun q => if q.1 = p1 then (q.1, v) else q)) =
        List.lookup y acc
  | [] => rfl
  | q :: acc => by
    rw [List.map_cons]
    by_cases hq : q.1 = p1
    · rw [if_pos hq, List.lookup_cons, List.lookup_cons,
        show (y == q.1) = false from beq_eq_false_iff_ne.2 (fun e => hne (e.trans hq))]
      exact lookup_update_ne hne acc
    · rw [if_neg hq, List.lookup_cons, List.lookup_cons]
      rcases hok : y == q.1 with _ | _
      · exact lookup_update_ne hne acc
      · rfl

theorem lookup_dictInsert_self (acc : List (String × String)) (p : String × String) :
    List.lookup p.1 (dictInsert acc p) = some p.2 := by
  unfold dictInsert
  split
  · next h =>
    rcases List.any_eq_true.1 h with ⟨q, hq, hd⟩
    have : p.1 ∈ acc.map Prod.fst :=
      List.mem_map.2 ⟨q, hq, by simpa using hd⟩
    exact lookup_update_self this
  · next h =>
    have hnone : List.lookup p.1 acc = none := by
      rw [lookup_eq_none_iff]
      intro hmem
      rcases List.mem_map.1 hmem with ⟨q, hq, he⟩
      exact h (List.any_eq_true.2 ⟨q, hq, by simpa using he⟩)
    rw [lookup_append_none hnone, List.lookup_cons, beq_self_eq_true]

theorem lookup_dictInsert_ne (acc : List (String × String)) (p : String × String)
    {y : String} (hne : y ≠ p.1) :
    List.lookup y (dictInsert acc p) = List.lookup y acc := by
  unfold dictInsert
  split
  · exact lookup_update_ne hne acc
  · rcases hl : List.lookup y acc with _ | v
    · rw [lookup_append_none hl, List.lookup_cons,
        show (y == p.1) = false from beq_eq_false_iff_ne.2 hne]
      rfl
    · exact lookup_append_some hl

theorem lookup_dictOfPairs (ps : List (String × String)) (y : String) :
    List.lookup y (dictOfPairs ps) =
      ((ps.filter (fun p => decide (p.1 = y))).getLast?).map Prod.snd := by
  induction ps using List.reverseRecOn with
  | nil => rfl
  | append_singleton ps p ih =>
    rw [show dictOfPairs (ps ++ [p]) = dictInsert (dictOfPairs ps) p from by
      unfold dictOfPairs; rw [List.foldl_append]; rfl]
    rw [List.filter_append]
    by_cases hpy : p.1 = y
    · rw [← hpy, lookup_dictInsert_self,
        show List.filter (fun q => decide (q.1 = p.1)) [p] = [p] from by simp,
        List.getLast?_concat]
      rfl
    · rw [lookup_dictInsert_ne _ _ (fun e => hpy e.symm),
        show List.filter (fun q => decide (q.1 = y)) [p] = [] from by simp [hpy],
        List.append_nil, ih]

/-! ### C7: the Name Normalizer -/

/-- C7: the rewritten owner column holds, at each record's position, the
mapping's value for the record's original owner label; an original label
absent from the mapping is rewritten to the explicit `none` marker (never
any original label, and the total function never raises), and a present
label is rewritten to its mapping value. -/
theorem name_normalizer_rewrite (conv : List (String × String)) (recs : List Record) :
    (∀ i : Nat, (newOwnerColumn conv recs)[i]? =
      (recs[i]?).map (fun r => List.lookup r.message_owner conv)) ∧
    (∀ lbl : String, lbl ∉ conv.map Prod.fst →
      (List.lookup lbl conv = none ∧ ∀ v : String, List.lookup lbl conv ≠ some v)) ∧
    (∀ (lbl v : String), List.lookup lbl conv = some v → (lbl, v) ∈ conv) := by
  refine ⟨?_, ?_, ?_⟩
  · intro i
    unfold newOwnerColumn
    rw [List.getElem?_map]
  · intro lbl h
    have hnone := lookup_eq_none_iff.2 h
    exact ⟨hnone, fun v hv => by rw [hnone] at hv; cases hv⟩
  · intro lbl v h
    exact lookup_some_mem h

/-- Witness for C7: a label missing from the mapping is rewritten to
`none`, and a present label to its mapped value. -/
theorem name_normalizer_rewrite_witness :
    List.lookup "usr9" [("usr2", "Alice")] = none ∧
    (newOwnerColumn [("usr2", "Alice")]
      [⟨"usr9", "b", 2019, 1, 1, 13, 38, 0, 0, 0⟩])[0]? = some none ∧
    ("usr9", "Alice") ∉ ([("usr2", "Alice")] : List (String × String)) :=
  ⟨((name_normalizer_rewrite [("usr2", "Alice")]
      [⟨"usr9", "b", 2019, 1, 1, 13, 38, 0, 0, 0⟩]).2.1 "usr9" (by decide)).1,
   by
    rw [(name_normalizer_rewrite [("usr2", "Alice")]
      [⟨"usr9", "b", 2019, 1, 1, 13, 38, 0, 0, 0⟩]).1 0]
    decide,
   by decide⟩

/-! ### C10: the mapping is a dict with later groups overwriting -/

/-- C10: the Owner Mapping is a function (its keys are pairwise
distinct); looking up an other-file label returns the root label of the
LAST group (in grouped iteration order) whose most frequent label was
that key, i.e. later groups overwrite earlier ones in `dict(mapping)`;
and on a concrete two-owner log whose messages are all attributed to one
other-file label, the earlier root owner "Alice" is left with no label
mapping to it. -/
theorem mapping_dict_overwrite :
    (∀ base othr : List Record,
      ((map_message_owner_names base othr).map Prod.fst).Nodup) ∧
    (∀ (base othr : List Record) (y : String),
      List.lookup y (map_message_owner_names base othr) =
        (((mappingPairs base othr).filter (fun p => decide (p.1 = y))).getLast?).map
          Prod.snd) ∧
    (map_message_owner_names
        [⟨"Alice", "a", 2019, 1, 1, 13, 37, 1, 0, 0⟩,
         ⟨"Bob", "b", 2019, 1, 1, 13, 38, 0, 0, 0⟩]
        [⟨"usr1", "a", 2019, 1, 1, 13, 37, 1, 0, 0⟩,
         ⟨"usr1", "b", 2019, 1, 1, 13, 38, 0, 0, 0⟩] = [("usr1", "Bob")] ∧
      "Alice" ∉ (map_message_owner_names
        [⟨"Alice", "a", 2019, 1, 1, 13, 37, 1, 0, 0⟩,
         ⟨"Bob", "b", 2019, 1, 1, 13, 38, 0, 0, 0⟩]
        [⟨"usr1", "a", 2019, 1, 1, 13, 37, 1, 0, 0⟩,
         ⟨"usr1", "b", 2019, 1, 1, 13, 38, 0, 0, 0⟩]).map Prod.snd) :=
  ⟨fun _ _ => nodup_keys_dictOfPairs _,
   fun _ _ y => lookup_dictOfPairs _ y,
   by decide⟩

/-! ### The most-frequent-label selection -/

theorem foldl_maxCount_mem (vals : List String) :
    ∀ (cs : List String) (b : String),
      (cs.foldl (fun best c2 => if vals.count best < vals.count c2 then c2 else best) b)
        ∈ b :: cs
  | [], _ => List.mem_cons_self _ _
  | c2 :: cs, b => by
    rw [List.foldl_cons]
    by_cases hlt : vals.count b < vals.count c2
    · rw [if_pos hlt]
      rcases List.mem_cons.1 (foldl_maxCount_mem vals cs c2) with h | h
      · rw [h]
        exact List.mem_cons_of_mem _ (List.mem_cons_self _ _)
      · exact List.mem_cons_of_mem _ (List.mem_cons_of_mem _ h)
    · rw [if_neg hlt]
      rcases List.mem_cons.1 (foldl_maxCount_mem vals cs b) with h | h
      · rw [h]
        exact List.mem_cons_self _ _
      · exact List.mem_cons_of_mem _ (List.mem_cons_of_mem _ h)

theorem foldl_maxCount_ge (vals : List String) :
    ∀ (cs : List String) (b c : String), c ∈ b :: cs →
      vals.count c ≤ vals.count
        (cs.foldl (fun best c2 => if vals.count best < vals.count c2 then c2 else best) b)
  | [], b, c, hc => by
    rcases List.mem_cons.1 hc with rfl | h
    · exact le_refl _
    · exact absurd h (List.not_mem_nil c)
  | c2 :: cs, b, c, hc => by
    rw [List.foldl_cons]
    by_cases hlt : vals.count b < vals.count c2
    · rw [if_pos hlt]
      rcases List.mem_cons.1 hc with rfl | h
      · exact le_trans (Nat.le_of_lt hlt)
          (foldl_maxCount_ge vals cs c2 c2 (List.mem_cons_self _ _))
      · exact foldl_maxCount_ge vals cs c2 c h
    · rw [if_neg hlt]
      rcases List.mem_cons.1 hc with rfl | h
      · exact foldl_maxCount_ge vals cs c c (List.mem_cons_self _ _)
      · rcases List.mem_cons.1 h with rfl | h2
        · exact le_trans (Nat.le_of_not_lt hlt)
            (foldl_maxCount_ge vals cs b b (List.mem_cons_self _ _))
        · exact foldl_maxCount_ge vals cs b c (List.mem_cons_of_mem _ h2)

theorem selectMostFrequent_spec {vals : List String} {c : String}
    (h : selectMostFrequent vals = some c) :
    c ∈ vals ∧ ∀ y ∈ vals, vals.count y ≤ vals.count c := by
  unfold selectMostFrequent at h
  rcases hsd : sortedDedup vals with _ | ⟨c0, cs⟩
  · rw [hsd] at h
    cases h
  · rw [hsd] at h
    obtain rfl := Option.some_inj.1 h
    constructor
    · have hmem := foldl_maxCount_mem vals cs c0
      rw [← hsd] at hmem
      exact mem_sortedDedup.1 hmem
    · intro y hy
      have hy2 : y ∈ c0 :: cs := hsd ▸ mem_sortedDedup.2 hy
      exact foldl_maxCount_ge vals cs c0 y hy2

theorem selectMostFrequent_of_ne_nil {vals : List String} (h : vals ≠ []) :
    ∃ c, selectMostFrequent vals = some c := by
  unfold selectMostFrequent
  rcases hsd : sortedDedup vals with _ | ⟨c0, cs⟩
  · exfalso
    rcases List.exists_mem_of_ne_nil vals h with ⟨a, ha⟩
    have hmem := mem_sortedDedup.2 ha
    rw [hsd] at hmem
    exact absurd hmem (List.not_mem_nil a)
  · exact ⟨_, rfl⟩

/-! ### The merged join and the grouped pairs -/

theorem mem_mergedPairs {base othr : List Record} {pr : String × String} :
    pr ∈ mergedPairs base othr ↔
      ∃ r ∈ base, ∃ s ∈ othr, sameKey r s ∧
        pr = (r.message_owner, s.message_owner) := by
  unfold mergedPairs
  rw [List.mem_flatMap]
  constructor
  · rintro ⟨r, hr, hpr⟩
    rcases List.mem_map.1 hpr with ⟨s, hs, rfl⟩
    rw [List.mem_filter] at hs
    exact ⟨r, hr, s, hs.1, by simpa using hs.2, rfl⟩
  · rintro ⟨r, hr, s, hs, hk, rfl⟩
    exact ⟨r, hr, List.mem_map.2 ⟨s, List.mem_filter.2 ⟨hs, by simpa using hk⟩, rfl⟩⟩

theorem mem_groupKeys {ps : List (String × String)} {x : String} :
    x ∈ groupKeys ps ↔ ∃ pr ∈ ps, Prod.fst pr = x := by
  unfold groupKeys
  rw [mem_sortedDedup, List.mem_map]

theorem mem_groupVals {ps : List (String × String)} {x k : String} :
    k ∈ groupVals ps x ↔ ∃ pr ∈ ps, pr.1 = x ∧ pr.2 = k := by
  unfold groupVals
  rw [List.mem_map]
  constructor
  · rintro ⟨pr, hpr, rfl⟩
    rw [List.mem_filter] at hpr
    exact ⟨pr, hpr.1, by simpa using hpr.2, rfl⟩
  · rintro ⟨pr, hpr, hx, hk⟩
    exact ⟨pr, List.mem_filter.2 ⟨hpr, by simpa using hx⟩, hk⟩

theorem mem_mappingPairs {base othr : List Record} {k v : String}
    (h : (k, v) ∈ mappingPairs base othr) :
    v ∈ groupKeys (mergedPairs base othr) ∧
      selectMostFrequent (groupVals (mergedPairs base othr) v) = some k := by
  unfold mappingPairs at h
  rcases List.mem_filterMap.1 h with ⟨x, hx, hsel⟩
  rcases hopt : selectMostFrequent (groupVals (mergedPairs base othr) x) with _ | y
  · rw [hopt] at hsel
    cases hsel
  · rw [hopt] at hsel
    have hpair : (y, x) = (k, v) := by simpa using hsel
    obtain ⟨rfl, rfl⟩ : y = k ∧ x = v :=
      ⟨congrArg Prod.fst hpair, congrArg Prod.snd hpair⟩
    exact ⟨hx, hopt⟩

/-! ### C5: the mapping direction -/

/-- C5: every entry of the Owner Mapping has the form
(other-file label, root-file label): the value labels a root record, the
key labels an other-file record matched to it by the text+date join, the
key belongs to the value's root-owner group, and it is a most frequent
other-file label of that group. -/
theorem mapping_direction (base othr : List Record) (k v : String)
    (h : (k, v) ∈ map_message_owner_names base othr) :
    (∃ r ∈ base, r.message_owner = v) ∧
    (∃ s ∈ othr, s.message_owner = k) ∧
    k ∈ groupVals (mergedPairs base othr) v ∧
    (∀ y ∈ groupVals (mergedPairs base othr) v,
      (groupVals (mergedPairs base othr) v).count y ≤
        (groupVals (mergedPairs base othr) v).count k) := by
  have hp : (k, v) ∈ mappingPairs base othr := mem_dictOfPairs h
  obtain ⟨hv, hsel⟩ := mem_mappingPairs hp
  obtain ⟨hkmem, hmax⟩ := selectMostFrequent_spec hsel
  obtain ⟨pr, hpr, hx, hk⟩ := mem_groupVals.1 hkmem
  obtain ⟨r, hr, s, hs, hkey, hpe⟩ := mem_mergedPairs.1 hpr
  rw [hpe] at hx hk
  exact ⟨⟨r, hr, hx⟩, ⟨s, hs, hk⟩, hkmem, hmax⟩

/-- Witness for C5: on a one-record pair of logs the single mapping
entry ("usr2", "Alice") has an other-file key and a root value. -/
theorem mapping_direction_witness :
    (∃ r ∈ ([⟨"Alice", "a", 2019, 1, 1, 13, 37, 1, 0, 0⟩] : List Record),
      r.message_owner = "Alice") ∧
    (∃ s ∈ ([⟨"usr2", "a", 2019, 1, 1, 13, 37, 1, 0, 0⟩] : List Record),
      s.message_owner = "usr2") ∧
    "usr2" ∈ groupVals (mergedPairs
      [⟨"Alice", "a", 2019, 1, 1, 13, 37, 1, 0, 0⟩]
      [⟨"usr2", "a", 2019, 1, 1, 13, 37, 1, 0, 0⟩]) "Alice" ∧
    (∀ y ∈ groupVals (mergedPairs
        [⟨"Alice", "a", 2019, 1, 1, 13, 37, 1, 0, 0⟩]
        [⟨"usr2", "a", 2019, 1, 1, 13, 37, 1, 0, 0⟩]) "Alice",
      (groupVals (mergedPairs
        [⟨"Alice", "a", 2019, 1, 1, 13, 37, 1, 0, 0⟩]
        [⟨"usr2", "a", 2019, 1, 1, 13, 37, 1, 0, 0⟩]) "Alice").count y ≤
      (groupVals (mergedPairs
        [⟨"Alice", "a", 2019, 1, 1, 13, 37, 1, 0, 0⟩]
        [⟨"usr2", "a", 2019, 1, 1, 13, 37, 1, 0, 0⟩]) "Alice").count "usr2") :=
  mapping_direction
    [⟨"Alice", "a", 2019, 1, 1, 13, 37, 1, 0, 0⟩]
    [⟨"usr2", "a", 2019, 1, 1, 13, 37, 1, 0, 0⟩] "usr2" "Alice" (by decide)

/-! ### C6: totality and bijectivity of the reconciler -/

theorem filterMap_eq_map_of_some {α β : Type} (g : α → β) :
    ∀ (l : List α) (G : α → Option β), (∀ x ∈ l, G x = some (g x)) →
      l.filterMap G = l.map g
  | [], _, _ => rfl
  | a :: l, G, h => by
    rw [List.filterMap_cons_some (h a (List.mem_cons_self _ _)), List.map_cons,
      filterMap_eq_map_of_some g l G (fun x hx => h x (List.mem_cons_of_mem _ hx))]

theorem dictOfPairs_of_nodup_keys :
    ∀ (ps acc : List (String × String)), ((acc ++ ps).map Prod.fst).Nodup →
      ps.foldl dictInsert acc = acc ++ ps
  | [], acc, _ => by simp
  | p :: ps, acc, h => by
    rw [List.foldl_cons]
    have hkey : ¬ (acc.any (fun q => decide (q.1 = p.1)) = true) := by
      intro hany
      rcases List.any_eq_true.1 hany with ⟨q, hq, hd⟩
      have hd2 : q.1 = p.1 := by simpa using hd
      rw [List.map_append] at h
      refine List.disjoint_of_nodup_append h (List.mem_map.2 ⟨q, hq, rfl⟩) ?_
      rw [hd2]
      exact List.mem_map.2 ⟨p, List.mem_cons_self _ _, rfl⟩
    have hins : dictInsert acc p = acc ++ [p] := by
      unfold dictInsert
      rw [if_neg hkey]
    rw [hins]
    have h2 : (((acc ++ [p]) ++ ps).map Prod.fst).Nodup := by
      rw [List.append_assoc]
      exact h
    rw [dictOfPairs_of_nodup_keys ps (acc ++ [p]) h2, List.append_assoc]
    rfl

/-- C6 fails as stated: both logs overlap on the text+date join key for
every message, yet the produced mapping does not cover the root owner
"Alice" by any key (both root groups select "usr1" and the dict keeps
only the later one), so the mapping is not a bijection onto the root
owners. -/
theorem reconciler_not_bijective_counterexample :
    overlapTotal
      [⟨"Alice", "a", 2019, 1, 1, 13, 37, 1, 0, 0⟩,
       ⟨"Bob", "b", 2019, 1, 1, 13, 38, 0, 0, 0⟩]
      [⟨"usr1", "a", 2019, 1, 1, 13, 37, 1, 0, 0⟩,
       ⟨"usr1", "b", 2019, 1, 1, 13, 38, 0, 0, 0⟩] = true ∧
    (∃ r ∈ ([⟨"Alice", "a", 2019, 1, 1, 13, 37, 1, 0, 0⟩,
             ⟨"Bob", "b", 2019, 1, 1, 13, 38, 0, 0, 0⟩] : List Record),
      r.message_owner = "Alice") ∧
    "Alice" ∉ (map_message_owner_names
      [⟨"Alice", "a", 2019, 1, 1, 13, 37, 1, 0, 0⟩,
       ⟨"Bob", "b", 2019, 1, 1, 13, 38, 0, 0, 0⟩]
      [⟨"usr1", "a", 2019, 1, 1, 13, 37, 1, 0, 0⟩,
       ⟨"usr1", "b", 2019, 1, 1, 13, 38, 0, 0, 0⟩]).map Prod.snd := by
  decide

/-- C6 (amended): when the other log is the root log with owner labels
renamed by a map that is injective on the root's owners, and equal join
keys within the root imply equal owners, the reconciler's mapping is
total on the other log's labels and bijective: distinct keys, distinct
values, and every root owner covered. -/
theorem reconciler_total_bijective (f : String → String) (base : List Record)
    (hinj : ∀ r1 ∈ base, ∀ r2 ∈ base,
      f r1.message_owner = f r2.message_owner → r1.message_owner = r2.message_owner)
    (hkey : ∀ r1 ∈ base, ∀ r2 ∈ base, sameKey r1 r2 →
      r1.message_owner = r2.message_owner) :
    (∀ s ∈ renameOwners f base,
      s.message_owner ∈
        (map_message_owner_names base (renameOwners f base)).map Prod.fst) ∧
    ((map_message_owner_names base (renameOwners f base)).map Prod.fst).Nodup ∧
    ((map_message_owner_names base (renameOwners f base)).map Prod.snd).Nodup ∧
    (∀ r ∈ base,
      r.message_owner ∈
        (map_message_owner_names base (renameOwners f base)).map Prod.snd) := by
  have hm1 : ∀ pr ∈ mergedPairs base (renameOwners f base),
      pr.2 = f pr.1 ∧ ∃ r ∈ base, r.message_owner = pr.1 := by
    intro pr hpr
    obtain ⟨r, hr, s2, hs2, hk, rfl⟩ := mem_mergedPairs.1 hpr
    obtain ⟨s, hs, rfl⟩ := List.mem_map.1 hs2
    have hk2 : sameKey r s := hk
    have hro := hkey r hr s hs hk2
    exact ⟨(congrArg f hro).symm, ⟨r, hr, rfl⟩⟩
  have hm2 : ∀ r ∈ base, (r.message_owner, f r.message_owner) ∈
      mergedPairs base (renameOwners f base) := by
    intro r hr
    exact mem_mergedPairs.2 ⟨r, hr, { r with message_owner := f r.message_owner },
      List.mem_map.2 ⟨r, hr, rfl⟩, ⟨rfl, rfl, rfl, rfl⟩, rfl⟩
  have hgk : ∀ x, x ∈ groupKeys (mergedPairs base (renameOwners f base)) ↔
      ∃ r ∈ base, r.message_owner = x := by
    intro x
    rw [mem_groupKeys]
    constructor
    · rintro ⟨pr, hpr, rfl⟩
      exact (hm1 pr hpr).2
    · rintro ⟨r, hr, rfl⟩
      exact ⟨_, hm2 r hr, rfl⟩
  have hsel : ∀ x ∈ groupKeys (mergedPairs base (renameOwners f base)),
      selectMostFrequent (groupVals (mergedPairs base (renameOwners f base)) x) =
        some (f x) := by
    intro x hx
    obtain ⟨r, hr, rfl⟩ := (hgk x).1 hx
    have hfx : f r.message_owner ∈
        groupVals (mergedPairs base (renameOwners f base)) r.message_owner :=
      mem_groupVals.2 ⟨_, hm2 r hr, rfl, rfl⟩
    obtain ⟨c, hc⟩ := selectMostFrequent_of_ne_nil (List.ne_nil_of_mem hfx)
    obtain ⟨hcmem, -⟩ := selectMostFrequent_spec hc
    obtain ⟨pr, hpr, hx1, hx2⟩ := mem_groupVals.1 hcmem
    rw [hc]
    congr 1
    rw [← hx2, (hm1 pr hpr).1, hx1]
  have hmp : mappingPairs base (renameOwners f base) =
      (groupKeys (mergedPairs base (renameOwners f base))).map (fun x => (f x, x)) := by
    unfold mappingPairs
    exact filterMap_eq_map_of_some _ _ _ (fun x hx => by rw [hsel x hx]; rfl)
  have hkeysnodup : ((mappingPairs base (renameOwners f base)).map Prod.fst).Nodup := by
    rw [hmp, List.map_map]
    show ((groupKeys (mergedPairs base (renameOwners f base))).map
      (fun x => f x)).Nodup
    refine List.Nodup.map_on ?_ (nodup_sortedDedup _)
    intro x hx y hy hfxy
    obtain ⟨r1, hr1, rfl⟩ := (hgk x).1 hx
    obtain ⟨r2, hr2, rfl⟩ := (hgk y).1 hy
    exact hinj r1 hr1 r2 hr2 hfxy
  have hdict : map_message_owner_names base (renameOwners f base) =
      mappingPairs base (renameOwners f base) := by
    unfold map_message_owner_names dictOfPairs
    rw [dictOfPairs_of_nodup_keys (mappingPairs base (renameOwners f base)) []
      (by simpa using hkeysnodup)]
    rfl
  refine ⟨?_, ?_, ?_, ?_⟩
  · intro s hs
    obtain ⟨r, hr, rfl⟩ := List.mem_map.1 hs
    rw [hdict, hmp, List.map_map]
    exact List.mem_map.2 ⟨r.message_owner, (hgk _).2 ⟨r, hr, rfl⟩, rfl⟩
  · rw [hdict]
    exact hkeysnodup
  · rw [hdict, hmp, List.map_map]
    rw [show (Prod.snd ∘ fun x : String => (f x, x)) = fun x => x from rfl, List.map_id']
    exact nodup_sortedDedup _
  · intro r hr
    rw [hdict, hmp, List.map_map]
    exact List.mem_map.2 ⟨r.message_owner, (hgk _).2 ⟨r, hr, rfl⟩, rfl⟩

/-- Witness for C6 (amended): a two-owner root log renamed injectively
yields a mapping with distinct keys and distinct values covering both
root owners. -/
theorem reconciler_total_bijective_witness :
    ((map_message_owner_names
      [⟨"Alice", "a", 2019, 1, 1, 13, 37, 1, 0, 0⟩,
       ⟨"Bob", "b", 2019, 1, 2, 13, 38, 0, 0, 0⟩]
      (renameOwners (fun s => if s = "Alice" then "u1" else "u2")
        [⟨"Alice", "a", 2019, 1, 1, 13, 37, 1, 0, 0⟩,
         ⟨"Bob", "b", 2019, 1, 2, 13, 38, 0, 0, 0⟩])).map Prod.fst).Nodup ∧
    ((map_message_owner_names
      [⟨"Alice", "a", 2019, 1, 1, 13, 37, 1, 0, 0⟩,
       ⟨"Bob", "b", 2019, 1, 2, 13, 38, 0, 0, 0⟩]
      (renameOwners (fun s => if s = "Alice" then "u1" else "u2")
        [⟨"Alice", "a", 2019, 1, 1, 13, 37, 1, 0, 0⟩,
         ⟨"Bob", "b", 2019, 1, 2, 13, 38, 0, 0, 0⟩])).map Prod.snd).Nodup :=
  ⟨(reconciler_total_bijective (fun s => if s = "Alice" then "u1" else "u2")
      [⟨"Alice", "a", 2019, 1, 1, 13, 37, 1, 0, 0⟩,
       ⟨"Bob", "b", 2019, 1, 2, 13, 38, 0, 0, 0⟩]
      (by decide) (by decide)).2.1,
   (reconciler_total_bijective (fun s => if s = "Alice" then "u1" else "u2")
      [⟨"Alice", "a", 2019, 1, 1, 13, 37, 1, 0, 0⟩,
       ⟨"Bob", "b", 2019, 1, 2, 13, 38, 0, 0, 0⟩]
      (by decide) (by decide)).2.2.1⟩

end LeetCount
